import Mathlib

/-!
Shallow embedding of `src/http2/src/solicit/header.rs` from `grpc-rust`:
the `HeaderPart` byte-field type, the `Header` name/value pair and the
`Headers` insertion-ordered list, together with the UTF-8 encoding and
validation that `Headers::add`/`Headers::get` rely on (`str::as_bytes`
and `str::from_utf8` in Rust).

Bytes are modelled as `List Nat` with every element below 256; the Rust
`Bytes` buffer is abstracted by its byte content, which is the only thing
any operation of this module observes.  A Rust panic (`Option::unwrap` /
`Result::unwrap`) is modelled by returning `none`.
-/

/-- UTF-8 encoding of a single unicode scalar value (given as its
codepoint), as produced by Rust `str::as_bytes` / Lean `String.toUTF8`. -/
def utf8EncodeCharNat (n : Nat) : List Nat :=
  if n < 0x80 then
    [n]
  else if n < 0x800 then
    [0xc0 + n / 64, 0x80 + n % 64]
  else if n < 0x10000 then
    [0xe0 + n / 4096, 0x80 + n / 64 % 64, 0x80 + n % 64]
  else
    [0xf0 + n / 0x40000, 0x80 + n / 4096 % 64, 0x80 + n / 64 % 64, 0x80 + n % 64]

/-- UTF-8 encoding of a list of characters. -/
def utf8Encode : List Char → List Nat
  | [] => []
  | c :: cs => utf8EncodeCharNat c.toNat ++ utf8Encode cs

/-- The byte content of a Rust `&str` / `String`: the UTF-8 encoding of its
characters (`str::as_bytes`, `String::into_bytes`). -/
def strBytes (s : String) : List Nat :=
  utf8Encode s.data

/-- One step of UTF-8 decoding with full validation (the per-sequence
check of Rust `str::from_utf8`): given the first byte and the remaining
bytes, decode one scalar value and return it with the unconsumed rest.
Rejects bad lead bytes, truncated sequences, out-of-range continuation
bytes, overlong encodings, surrogate codepoints and codepoints above
`0x10ffff`. -/
def utf8DecodeStep (b1 : Nat) (tail : List Nat) : Option (Char × List Nat) :=
  if b1 < 0x80 then
    some (Char.ofNat b1, tail)
  else if b1 < 0xc2 then
    none
  else if b1 < 0xe0 then
    match tail with
    | b2 :: tail2 =>
      if 0x80 ≤ b2 ∧ b2 < 0xc0 then
        some (Char.ofNat ((b1 - 0xc0) * 64 + (b2 - 0x80)), tail2)
      else none
    | [] => none
  else if b1 < 0xf0 then
    match tail with
    | b2 :: b3 :: tail3 =>
      if 0x80 ≤ b2 ∧ b2 < 0xc0 ∧ 0x80 ≤ b3 ∧ b3 < 0xc0 then
        if 0x800 ≤ (b1 - 0xe0) * 4096 + (b2 - 0x80) * 64 + (b3 - 0x80) ∧
            ¬(0xd800 ≤ (b1 - 0xe0) * 4096 + (b2 - 0x80) * 64 + (b3 - 0x80) ∧
              (b1 - 0xe0) * 4096 + (b2 - 0x80) * 64 + (b3 - 0x80) ≤ 0xdfff) then
          some (Char.ofNat ((b1 - 0xe0) * 4096 + (b2 - 0x80) * 64 + (b3 - 0x80)), tail3)
        else none
      else none
    | _ => none
  else if b1 < 0xf5 then
    match tail with
    | b2 :: b3 :: b4 :: tail4 =>
      if 0x80 ≤ b2 ∧ b2 < 0xc0 ∧ 0x80 ≤ b3 ∧ b3 < 0xc0 ∧ 0x80 ≤ b4 ∧ b4 < 0xc0 then
        if 0x10000 ≤ (b1 - 0xf0) * 0x40000 + (b2 - 0x80) * 4096 + (b3 - 0x80) * 64 + (b4 - 0x80) ∧
            (b1 - 0xf0) * 0x40000 + (b2 - 0x80) * 4096 + (b3 - 0x80) * 64 + (b4 - 0x80) < 0x110000 then
          some
            (Char.ofNat
              ((b1 - 0xf0) * 0x40000 + (b2 - 0x80) * 4096 + (b3 - 0x80) * 64 + (b4 - 0x80)),
              tail4)
        else none
      else none
    | _ => none
  else none

/-- A successful decode step never grows the unconsumed remainder. -/
theorem utf8DecodeStep_length (b1 : Nat) (tail : List Nat) (c : Char) (rest : List Nat)
    (h : utf8DecodeStep b1 tail = some (c, rest)) : rest.length ≤ tail.length := by
  unfold utf8DecodeStep at h
  repeat' split at h
  all_goals try exact Option.noConfusion h
  all_goals simp only [Option.some.injEq, Prod.mk.injEq] at h
  all_goals obtain ⟨-, rfl⟩ := h
  all_goals simp
  all_goals omega

/-- UTF-8 decoding with full validation, modelling Rust `str::from_utf8`:
decode scalar values one after another via `utf8DecodeStep`; any invalid
sequence makes the whole decode fail. -/
def utf8Decode : List Nat → Option (List Char)
  | [] => some []
  | b1 :: tail =>
    match hs : utf8DecodeStep b1 tail with
    | none => none
    | some (c, rest) => (utf8Decode rest).map (fun cs => c :: cs)
termination_by l => l.length
decreasing_by
  have := utf8DecodeStep_length b1 tail c rest hs
  simp only [List.length_cons]
  omega

/-- Rust `pub struct HeaderPart(Bytes)`: a header name or value as an immutable
byte sequence, abstracted by its byte content. -/
structure HeaderPart where
  bytes : List Nat
deriving DecidableEq

/-- Rust `impl From<Vec<u8>> for HeaderPart`: wrap an owned byte buffer. -/
def HeaderPart.fromVec (vec : List Nat) : HeaderPart :=
  ⟨vec⟩

/-- Rust `impl From<&[u8]> for HeaderPart`: copy a borrowed byte slice. -/
def HeaderPart.fromSlice (buf : List Nat) : HeaderPart :=
  ⟨buf⟩

/-- Rust `Cow<'a, B>`: either a borrowed or an owned value, abstracted by
the payload. -/
inductive Cow (α : Type) where
  | borrowed (v : α)
  | owned (v : α)
deriving DecidableEq

/-- Rust `Cow::into_owned`: extract the payload (cloning when borrowed). -/
def Cow.intoOwned {α : Type} : Cow α → α
  | .borrowed v => v
  | .owned v => v

/-- Rust `impl From<Cow<'a, [u8]>> for HeaderPart`: materialize the owned
buffer and wrap it. -/
def HeaderPart.fromCowBytes (cow : Cow (List Nat)) : HeaderPart :=
  HeaderPart.fromVec cow.intoOwned

/-- The macro `from_static_size_array!`: `impl From<&[u8; N]> for HeaderPart` for
each `N` in `0 ..= 23`, each delegating to the slice conversion via
`buf[..].into()`. -/
def HeaderPart.fromStaticArray (n : Nat) (buf : { l : List Nat // l.length = n }) :
    HeaderPart :=
  HeaderPart.fromSlice buf.val

/-- Rust `impl From<String> for HeaderPart`: take the string's UTF-8 byte
encoding (`String::into_bytes`), then the `Vec<u8>` conversion. -/
def HeaderPart.fromString (s : String) : HeaderPart :=
  HeaderPart.fromVec (strBytes s)

/-- Rust `impl From<&str> for HeaderPart`: the string's UTF-8 bytes
(`str::as_bytes`), then the slice conversion. -/
def HeaderPart.fromStr (s : String) : HeaderPart :=
  HeaderPart.fromSlice (strBytes s)

/-- Rust `impl From<Cow<'a, str>> for HeaderPart`: materialize the owned string
(`Cow::into_owned`), then the `String` conversion. -/
def HeaderPart.fromCowStr (cow : Cow String) : HeaderPart :=
  HeaderPart.fromString cow.intoOwned

/-- Lowercase hexadecimal digit, as produced by Rust `{:02x}` formatting. -/
def hexDigitLower (n : Nat) : Char :=
  if n < 10 then Char.ofNat (48 + n) else Char.ofNat (97 + (n - 10))

/-- The rendering of one byte in `impl fmt::Debug for HeaderPart`:
`if c >= 0x20 && c < 0x7f { c as char } else { "\xHH" }` with `{:02x}`
producing exactly two lowercase hex digits for a `u8`. -/
def fmtByte (c : Nat) : List Char :=
  if 0x20 ≤ c ∧ c < 0x7f then
    [Char.ofNat c]
  else
    ['\\', 'x', hexDigitLower (c / 16 % 16), hexDigitLower (c % 16)]

/-- Rust `impl fmt::Debug for HeaderPart`: `b"` then each byte rendered by
`fmtByte`, then a closing quote. -/
def HeaderPart.debugFmt (hp : HeaderPart) : List Char :=
  'b' :: '"' :: (hp.bytes.map fmtByte).flatten ++ ['"']

/-- Rust `pub struct Header { pub name: Bytes, pub value: Bytes }`, with the
derived `PartialEq` comparing both fields by byte content. -/
structure Header where
  name : List Nat
  value : List Nat
deriving DecidableEq

/-- Rust `Header::new`, after the two `Into<HeaderPart>` conversions picked at
the call site have been applied: store both byte fields. -/
def Header.new (name value : HeaderPart) : Header :=
  ⟨name.bytes, value.bytes⟩

/-- Rust `impl From<(N, V)> for Header`: `Header::new(p.0, p.1)`. -/
def Header.fromPair (p : HeaderPart × HeaderPart) : Header :=
  Header.new p.1 p.2

/-- Rust `pub struct Headers(pub Vec<Header>)`. -/
structure Headers where
  headers : List Header
deriving DecidableEq

/-- Rust `Headers::new`, i.e. `Default::default()`: the empty vector. -/
def Headers.new : Headers :=
  ⟨[]⟩

/-- Rust `Headers::add(&mut self, name: &str, value: &str)`:
`self.0.push(Header::new(name, value))`. -/
def Headers.add (hs : Headers) (name value : String) : Headers :=
  ⟨hs.headers ++ [Header.new (HeaderPart.fromStr name) (HeaderPart.fromStr value)]⟩

/-- Rust `Headers::get(&self, name: &str) -> &str`:
`str::from_utf8(self.0.iter().filter(|&h| h.name() == name.as_bytes()).next().unwrap().value()).unwrap()`.
`filter(..).next()` is a first-match scan (`List.find?`); both `unwrap`
panics are modelled by `none`. -/
def Headers.get (hs : Headers) (name : String) : Option String :=
  match hs.headers.find? (fun h => h.name == strBytes name) with
  | none => none
  | some h =>
    match utf8Decode h.value with
    | none => none
    | some cs => some (String.mk cs)

theorem utf8Decode_nil : utf8Decode [] = some [] := by
  rw [utf8Decode]

theorem utf8Decode_cons_none (b1 : Nat) (tail : List Nat)
    (h : utf8DecodeStep b1 tail = none) : utf8Decode (b1 :: tail) = none := by
  rw [utf8Decode]
  split
  · rfl
  · simp_all

theorem utf8Decode_cons_some (b1 : Nat) (tail : List Nat) (c : Char) (rest : List Nat)
    (h : utf8DecodeStep b1 tail = some (c, rest)) :
    utf8Decode (b1 :: tail) = (utf8Decode rest).map (fun cs => c :: cs) := by
  rw [utf8Decode]
  split
  · simp_all
  · simp_all

theorem utf8DecodeStep_enc1 (n : Nat) (l : List Nat) (h : n < 0x80) :
    utf8DecodeStep n l = some (Char.ofNat n, l) := by
  unfold utf8DecodeStep
  rw [if_pos h]

theorem utf8DecodeStep_enc2 (n : Nat) (l : List Nat) (h1 : 0x80 ≤ n) (h2 : n < 0x800) :
    utf8DecodeStep (0xc0 + n / 64) ((0x80 + n % 64) :: l) = some (Char.ofNat n, l) := by
  unfold utf8DecodeStep
  rw [if_neg (by omega), if_neg (by omega), if_pos (by omega)]
  dsimp only
  rw [if_pos (by omega)]
  have hn : (0xc0 + n / 64 - 0xc0) * 64 + (0x80 + n % 64 - 0x80) = n := by omega
  rw [hn]

theorem utf8DecodeStep_enc3 (n : Nat) (l : List Nat) (h1 : 0x800 ≤ n) (h2 : n < 0x10000)
    (hv : ¬(0xd800 ≤ n ∧ n ≤ 0xdfff)) :
    utf8DecodeStep (0xe0 + n / 4096) ((0x80 + n / 64 % 64) :: (0x80 + n % 64) :: l) =
      some (Char.ofNat n, l) := by
  unfold utf8DecodeStep
  rw [if_neg (by omega), if_neg (by omega), if_neg (by omega), if_pos (by omega)]
  dsimp only
  rw [if_pos (by omega)]
  have hn : (0xe0 + n / 4096 - 0xe0) * 4096 + (0x80 + n / 64 % 64 - 0x80) * 64 +
      (0x80 + n % 64 - 0x80) = n := by omega
  rw [hn]
  rw [if_pos (by constructor <;> omega)]

theorem utf8DecodeStep_enc4 (n : Nat) (l : List Nat) (h1 : 0x10000 ≤ n) (h2 : n < 0x110000) :
    utf8DecodeStep (0xf0 + n / 0x40000)
      ((0x80 + n / 4096 % 64) :: (0x80 + n / 64 % 64) :: (0x80 + n % 64) :: l) =
      some (Char.ofNat n, l) := by
  unfold utf8DecodeStep
  rw [if_neg (by omega), if_neg (by omega), if_neg (by omega), if_neg (by omega),
    if_pos (by omega)]
  dsimp only
  rw [if_pos (by omega)]
  have hn : (0xf0 + n / 0x40000 - 0xf0) * 0x40000 + (0x80 + n / 4096 % 64 - 0x80) * 4096 +
      (0x80 + n / 64 % 64 - 0x80) * 64 + (0x80 + n % 64 - 0x80) = n := by omega
  rw [hn]
  rw [if_pos (by constructor <;> omega)]

theorem utf8Decode_encodeChar (n : Nat) (hv : n.isValidChar) (l : List Nat) :
    utf8Decode (utf8EncodeCharNat n ++ l) =
      (utf8Decode l).map (fun cs => Char.ofNat n :: cs) := by
  unfold utf8EncodeCharNat
  by_cases h1 : n < 0x80
  · rw [if_pos h1]
    rw [List.cons_append, List.nil_append,
      utf8Decode_cons_some n l (Char.ofNat n) l (utf8DecodeStep_enc1 n l h1)]
  · rw [if_neg h1]
    by_cases h2 : n < 0x800
    · rw [if_pos h2]
      rw [List.cons_append, List.cons_append, List.nil_append,
        utf8Decode_cons_some _ _ (Char.ofNat n) l (utf8DecodeStep_enc2 n l (by omega) h2)]
    · rw [if_neg h2]
      by_cases h3 : n < 0x10000
      · rw [if_pos h3]
        have hv' : ¬(0xd800 ≤ n ∧ n ≤ 0xdfff) := by
          rcases hv with h | h <;> omega
        rw [List.cons_append, List.cons_append, List.cons_append, List.nil_append,
          utf8Decode_cons_some _ _ (Char.ofNat n) l (utf8DecodeStep_enc3 n l (by omega) h3 hv')]
      · rw [if_neg h3]
        have h4 : n < 0x110000 := by
          rcases hv with h | h <;> omega
        rw [List.cons_append, List.cons_append, List.cons_append, List.cons_append,
          List.nil_append,
          utf8Decode_cons_some _ _ (Char.ofNat n) l (utf8DecodeStep_enc4 n l (by omega) h4)]

theorem utf8Decode_utf8Encode (s : List Char) : utf8Decode (utf8Encode s) = some s := by
  induction s with
  | nil => rw [utf8Encode, utf8Decode_nil]
  | cons c cs ih =>
    rw [utf8Encode, utf8Decode_encodeChar c.toNat c.valid, ih, Option.map_some',
      Char.ofNat_toNat]

/-- The supported `Into<HeaderPart>` source types of the module: owned
byte buffer (`Vec<u8>`), borrowed slice (`&[u8]`), copy-on-write bytes
(`Cow<[u8]>`), fixed-size arrays `&[u8; N]` for `N ≤ 23`, owned text
(`String`), borrowed text (`&str`) and copy-on-write text (`Cow<str>`). -/
inductive HPSource where
  | vec (v : List Nat)
  | slice (b : List Nat)
  | cowBytes (c : Cow (List Nat))
  | staticArray (n : Nat) (hn : n ≤ 23) (buf : { l : List Nat // l.length = n })
  | ownedString (s : String)
  | strSlice (s : String)
  | cowStr (c : Cow String)

/-- Dispatch of `Into::<HeaderPart>::into` to the `From` impl picked by
the source type. -/
def HPSource.intoHeaderPart : HPSource → HeaderPart
  | .vec v => HeaderPart.fromVec v
  | .slice b => HeaderPart.fromSlice b
  | .cowBytes c => HeaderPart.fromCowBytes c
  | .staticArray n _ buf => HeaderPart.fromStaticArray n buf
  | .ownedString s => HeaderPart.fromString s
  | .strSlice s => HeaderPart.fromStr s
  | .cowStr c => HeaderPart.fromCowStr c

/-- The byte content of a conversion source as the spec describes it: the
bytes themselves for byte-shaped sources, the UTF-8 encoding for text
sources. -/
def HPSource.srcBytes : HPSource → List Nat
  | .vec v => v
  | .slice b => b
  | .cowBytes c => c.intoOwned
  | .staticArray _ _ buf => buf.val
  | .ownedString s => strBytes s
  | .strSlice s => strBytes s
  | .cowStr c => strBytes c.intoOwned

/-- Every conversion path preserves the source's byte content. -/
theorem HPSource.bytes_eq (src : HPSource) :
    (HPSource.intoHeaderPart src).bytes = HPSource.srcBytes src := by
  cases src <;> rfl

/-- Two byte fields are equal exactly when their byte contents are. -/
theorem HeaderPart.eq_iff (a b : HeaderPart) : a = b ↔ a.bytes = b.bytes := by
  cases a
  cases b
  simp

/-- Lowercase hex digit as the spec words it: `0`–`9` then `a`–`f`. -/
def specHexLower (n : Nat) : Char :=
  if n < 10 then Char.ofNat (Char.toNat '0' + n) else Char.ofNat (Char.toNat 'a' + (n - 10))

/-- The spec's rendering of one byte: printable ASCII (`0x20` through
`0x7e` inclusive) passes through literally, every other byte becomes
`\xHH` with exactly two lowercase hex digits. -/
def specByteRender (c : Nat) : List Char :=
  if 0x20 ≤ c ∧ c ≤ 0x7e then
    [Char.ofNat c]
  else
    ['\\', 'x', specHexLower (c / 16), specHexLower (c % 16)]

/-- On bytes, the code's rendering agrees with the spec's rendering. -/
theorem fmtByte_eq_spec (c : Nat) (h : c < 256) : fmtByte c = specByteRender c := by
  unfold fmtByte specByteRender hexDigitLower specHexLower
  have h16 : c / 16 % 16 = c / 16 := by omega
  rw [h16]
  split_ifs <;> first | rfl | omega

/-- C1: `Headers::get` scans in insertion order and, when some entry's
name byte-equals the UTF-8 encoding of the given name and the first such
entry's value is valid UTF-8, returns exactly that first matching entry's
value reinterpreted as text. -/
theorem Headers.get_first_match (hs : Headers) (n : String) (h : Header) (cs : List Char)
    (hfind : hs.headers.find? (fun h' => h'.name == strBytes n) = some h)
    (hdec : utf8Decode h.value = some cs) :
    hs.get n = some (String.mk cs) := by
  unfold Headers.get
  rw [hfind]
  dsimp only
  rw [hdec]

/-- C1 witness: on `add("a","1"); add("b","2"); add("a","3")`, `get("a")`
returns `"1"`. -/
theorem Headers.get_first_match_witness :
    (((Headers.new.add "a" "1").add "b" "2").add "a" "3").get "a" = some "1" :=
  Headers.get_first_match (((Headers.new.add "a" "1").add "b" "2").add "a" "3") "a"
    ⟨[97], [49]⟩ ['1'] (by decide)
    (by
      show utf8Decode [49] = some ['1']
      rw [utf8Decode_cons_some 49 [] '1' [] (by decide), utf8Decode_nil]
      rfl)

/-- C2: `Headers::get` hits an `unwrap` panic (modelled as `none`) in
exactly two cases: no entry's name byte-equals the UTF-8 encoding of the
given name, or the first matching entry's value is not valid UTF-8; in
every other case it returns normally. -/
theorem Headers.get_none_iff (hs : Headers) (n : String) :
    hs.get n = none ↔
      ((∀ h ∈ hs.headers, h.name ≠ strBytes n) ∨
       ∃ h, hs.headers.find? (fun h' => h'.name == strBytes n) = some h ∧
         utf8Decode h.value = none) := by
  unfold Headers.get
  cases hfind : hs.headers.find? (fun h' => h'.name == strBytes n) with
  | none =>
    rw [List.find?_eq_none] at hfind
    simp only [beq_iff_eq] at hfind
    exact iff_of_true rfl (Or.inl hfind)
  | some h =>
    dsimp only
    cases hdec : utf8Decode h.value with
    | none =>
      exact iff_of_true rfl (Or.inr ⟨h, rfl, hdec⟩)
    | some cs =>
      apply iff_of_false
      · simp
      · rintro (hall | ⟨h', heq, hdec'⟩)
        · have hmem := List.mem_of_find?_eq_some hfind
          have hp := List.find?_some hfind
          simp only [beq_iff_eq] at hp
          exact hall h hmem hp
        · cases heq
          rw [hdec'] at hdec
          cases hdec

/-- Folding a sequence of `add` calls appends the corresponding headers. -/
theorem Headers.foldl_add (hs : Headers) (calls : List (String × String)) :
    (calls.foldl (fun hs' p => hs'.add p.1 p.2) hs).headers =
      hs.headers ++ calls.map
        (fun p => Header.new (HeaderPart.fromStr p.1) (HeaderPart.fromStr p.2)) := by
  induction calls generalizing hs with
  | nil => simp
  | cons p ps ih =>
    rw [List.foldl_cons, ih, List.map_cons]
    unfold Headers.add
    simp

/-- C3: a default-constructed header list is empty, and any sequence of
`add` calls yields exactly one header per call, in call order, with no
deduplication, sorting or case-folding; in particular
`add("a","1"); add("b","2"); add("a","3")` yields those three headers in
that order. -/
theorem Headers.new_empty_insertion_order :
    Headers.new.headers = [] ∧
    (∀ calls : List (String × String),
      (calls.foldl (fun hs p => hs.add p.1 p.2) Headers.new).headers =
        calls.map (fun p => Header.new (HeaderPart.fromStr p.1) (HeaderPart.fromStr p.2))) ∧
    (((Headers.new.add "a" "1").add "b" "2").add "a" "3").headers =
      [⟨[97], [49]⟩, ⟨[98], [50]⟩, ⟨[97], [51]⟩] := by
  refine ⟨rfl, fun calls => ?_, by decide⟩
  rw [Headers.foldl_add]
  rfl

/-- C4: the debug rendering of a byte field built from any conversion
path is a quoted byte-string literal in which every byte in
`[0x20, 0x7e]` appears as the literal character and every other byte as
`\xHH` with two lowercase hex digits (the spec-side `specByteRender`). -/
theorem HeaderPart.debugFmt_spec (src : HPSource)
    (hb : ∀ c ∈ src.srcBytes, c < 256) :
    (src.intoHeaderPart).debugFmt =
      'b' :: '"' :: (src.srcBytes.map specByteRender).flatten ++ ['"'] := by
  unfold HeaderPart.debugFmt
  rw [HPSource.bytes_eq]
  have hmap : src.srcBytes.map fmtByte = src.srcBytes.map specByteRender :=
    List.map_congr_left fun c hc => fmtByte_eq_spec c (hb c hc)
  rw [hmap]

/-- C4 witness: rendering the byte field built from `[0, 65, 255]`
produces `b"\x00A\xff"`. -/
theorem HeaderPart.debugFmt_spec_witness :
    (∀ c ∈ (HPSource.vec [0, 65, 255]).srcBytes, c < 256) ∧
    (HPSource.vec [0, 65, 255]).intoHeaderPart.debugFmt =
      'b' :: '"' :: ((HPSource.vec [0, 65, 255]).srcBytes.map specByteRender).flatten ++ ['"'] :=
  ⟨by decide, HeaderPart.debugFmt_spec (HPSource.vec [0, 65, 255]) (by decide)⟩

/-- C5: byte fields compare equal exactly when their byte contents are
equal, whatever conversion paths built them; and two headers are equal
exactly when both names and values are byte-for-byte equal. -/
theorem HeaderPart.eq_iff_content :
    (∀ s1 s2 : HPSource,
      s1.intoHeaderPart = s2.intoHeaderPart ↔ s1.srcBytes = s2.srcBytes) ∧
    (∀ h1 h2 : Header, h1 = h2 ↔ h1.name = h2.name ∧ h1.value = h2.value) := by
  constructor
  · intro s1 s2
    rw [HeaderPart.eq_iff, HPSource.bytes_eq, HPSource.bytes_eq]
  · intro h1 h2
    cases h1
    cases h2
    simp

/-- C6: `Header::new(n, v)` stores exactly the byte content of its two
sources: `name()` returns the bytes of `n` and `value()` the bytes of
`v`, for every supported source type. -/
theorem Header.new_name_value (n v : HPSource) :
    (Header.new n.intoHeaderPart v.intoHeaderPart).name = n.srcBytes ∧
    (Header.new n.intoHeaderPart v.intoHeaderPart).value = v.srcBytes := by
  unfold Header.new
  exact ⟨HPSource.bytes_eq n, HPSource.bytes_eq v⟩

/-- C7: converting a `(name, value)` pair into a `Header` is exactly
`Header::new` on the two components, for every pair of sources. -/
theorem Header.fromPair_eq_new (n v : HPSource) :
    Header.fromPair (n.intoHeaderPart, v.intoHeaderPart) =
      Header.new n.intoHeaderPart v.intoHeaderPart := rfl

/-- C8: every conversion path into a byte field is total and yields the
source's byte content (UTF-8 encoding for text sources), for owned
buffers, borrowed slices, fixed-size arrays of each length up to 23,
copy-on-write buffers, and owned, borrowed or copy-on-write text. -/
theorem HeaderPart.conversion_total (src : HPSource) :
    (src.intoHeaderPart).bytes = src.srcBytes := by
  cases src <;> rfl

/-- C9: text round-trips: a header list value added from a string comes
back unchanged through the text-returning `get`, and decoding the bytes
of a byte field built from a string (owned or borrowed path) yields the
original characters. -/
theorem HeaderPart.text_roundtrip :
    (∀ n v : String, (Headers.new.add n v).get n = some v) ∧
    (∀ s : String,
      utf8Decode (HeaderPart.fromString s).bytes = some s.data ∧
      utf8Decode (HeaderPart.fromStr s).bytes = some s.data) := by
  constructor
  · intro n v
    unfold Headers.get
    have hfind : (Headers.new.add n v).headers.find? (fun h' => h'.name == strBytes n) =
        some (Header.new (HeaderPart.fromStr n) (HeaderPart.fromStr v)) := by
      show List.find? _ [_] = _
      rw [List.find?_cons_of_pos _ (by simp [Header.new, HeaderPart.fromStr, HeaderPart.fromSlice])]
    rw [hfind]
    dsimp only
    rw [show utf8Decode (Header.new (HeaderPart.fromStr n) (HeaderPart.fromStr v)).value =
      some v.data from utf8Decode_utf8Encode v.data]
  · intro s
    exact ⟨utf8Decode_utf8Encode s.data, utf8Decode_utf8Encode s.data⟩

/-- C10: `Headers::add` appends: the length grows by one, every existing
entry keeps its position, and the new last entry is `Header::new(n, v)`. -/
theorem Headers.add_frame (hs : Headers) (n v : String) :
    (hs.add n v).headers.length = hs.headers.length + 1 ∧
    (hs.add n v).headers.take hs.headers.length = hs.headers ∧
    (hs.add n v).headers.getLast? =
      some (Header.new (HeaderPart.fromStr n) (HeaderPart.fromStr v)) := by
  unfold Headers.add
  refine ⟨by simp, ?_, ?_⟩
  · exact List.take_left hs.headers _
  · simp
